import Mathlib

/-!
Verification of the time-series statistics / fixed-point encoding / commitment
hashing core of the `zk-timeseries` repository, shallowly embedded from
`src/crates/lib-timeseries/src/lib.rs` (the primary copy; `src/lib/src/lib.rs`
is a second, slightly diverging copy and is modelled separately where a claim
depends on it).

Modelling conventions:
- `f64` values are embedded as exact rationals `ℚ`.  All concrete inputs used
  in counterexamples and witnesses are chosen so that the floating-point
  computation they exercise is exact (every intermediate value is exactly
  representable in binary64), so the rational model agrees with the source
  bit-for-bit at those points.  Division by zero yields `0` in `ℚ` where `f64`
  yields `NaN`; no theorem below relies on the numeric value of such a result.
- `u64` / `usize` timestamps and indices are `ℕ`; arithmetic that can wrap in
  the source (release-mode `u64` add/sub/mul) is taken modulo `2 ^ 64`.
- Rust panics (failed `assert!`, out-of-bounds slicing/indexing, arithmetic
  underflow on `usize`) are modelled as `Option.none`.
- The Keccak-256 permutation (external `sha3` crate), the IEEE-754 bit pattern
  of an `f64` (`f64::to_be_bytes`), and `f64::sqrt` are not part of this
  repository; they enter the model as function parameters `keccak`, `bits` and
  `sqrtF`.  No theorem depends on their concrete behaviour.
-/

/-- Big-endian byte list of the low `w` bytes of `n`; models Rust
`uN::to_be_bytes` (for `n < 256 ^ w` it is exactly the `w`-byte encoding). -/
def beBytes : ℕ → ℕ → List ℕ
  | 0, _ => []
  | w + 1, n => n / 256 ^ w % 256 :: beBytes w n

/-- Reads a big-endian byte list back as a natural number; models
`u128::from_be_bytes` composed over the byte list. -/
def fromBeBytes (l : List ℕ) : ℕ :=
  l.foldl (fun acc b => acc * 256 + b) 0

/-- The `TimeSeries` struct: two parallel public vectors.  The struct itself
imposes no invariant (its fields are `pub` in the source). -/
structure TimeSeries where
  timestamps : List ℕ
  values : List ℚ
deriving DecidableEq

/-- `TimeSeries::new`: asserts equal lengths (panic modelled as `none`) and
otherwise constructs the series.  There is no emptiness check in the source. -/
def TimeSeries.new (timestamps : List ℕ) (values : List ℚ) : Option TimeSeries :=
  if timestamps.length = values.length then some ⟨timestamps, values⟩ else none

/-- `TimeSeries::mean`: sum of the values divided by the length.  On an empty
series the source produces the `f64` `NaN` (`0.0 / 0.0`); in `ℚ` this is `0`.
Every use below is guarded so that the empty case never reaches a theorem. -/
def TimeSeries.mean (ts : TimeSeries) : ℚ :=
  ts.values.sum / (ts.values.length : ℚ)

/-- Ascending insertion used by the sort model. -/
def insertAsc (x : ℚ) : List ℚ → List ℚ
  | [] => [x]
  | y :: ys => if x ≤ y then x :: y :: ys else y :: insertAsc x ys

/-- Ascending sort of a copy of the values; models
`sorted_values.sort_by(|a, b| a.partial_cmp(b).unwrap())` (on `ℚ` the order is
total, so the `unwrap` never fails). -/
def sortAsc : List ℚ → List ℚ
  | [] => []
  | x :: xs => insertAsc x (sortAsc xs)

/-- `TimeSeries::median`: sort a copy, then take the middle element (odd
length) or the mean of the two middle elements (even length).  On an empty
series `mid - 1` underflows and the index is out of bounds in the source
(a panic), modelled by the `none` branch of the out-of-range lookup. -/
def TimeSeries.median (ts : TimeSeries) : Option ℚ :=
  let sorted := sortAsc ts.values
  let mid := sorted.length / 2
  if sorted.length % 2 = 0 then
    match sorted[mid - 1]?, sorted[mid]? with
    | some a, some b => some ((a + b) / 2)
    | _, _ => none
  else sorted[mid]?

/-- `TimeSeries::std_dev`: square root of the population variance
(divisor `n`).  `f64::sqrt` is the parameter `sqrtF`. -/
def TimeSeries.std_dev (sqrtF : ℚ → ℚ) (ts : TimeSeries) : ℚ :=
  sqrtF ((ts.values.map fun v => (v - ts.mean) ^ 2).sum / (ts.values.length : ℚ))

/-- Rust inclusive slice `&l[s..=e]`: in bounds iff `s ≤ e + 1 ∧ e + 1 ≤ len`
(an empty slice when `s = e + 1`); out of bounds panics (`none`). -/
def sliceIncl (l : List ℚ) (s e : ℕ) : Option (List ℚ) :=
  if s ≤ e + 1 ∧ e + 1 ≤ l.length then some ((l.drop s).take (e + 1 - s)) else none

/-- Window start used by `moving_average`:
`if i < window_size { 0 } else { i - window_size + 1 }`. -/
def maStart (w i : ℕ) : ℕ :=
  if i < w then 0 else i - w + 1

/-- The window `&self.values[start..=i]` taken at index `i`. -/
def TimeSeries.maWindow (ts : TimeSeries) (w i : ℕ) : Option (List ℚ) :=
  sliceIncl ts.values (maStart w i) i

/-- Runs the loop body over the index list, collecting pushed values; a `none`
(panic) anywhere aborts the whole computation, as a panic would. -/
def collectValues (f : ℕ → Option ℚ) : List ℕ → Option (List ℚ)
  | [] => some []
  | i :: is =>
    match f i, collectValues f is with
    | some v, some vs => some (v :: vs)
    | _, _ => none

/-- `TimeSeries::moving_average`: one averaged window value per input index,
then `TimeSeries::new(self.timestamps.clone(), ma_values)`. -/
def TimeSeries.moving_average (ts : TimeSeries) (window_size : ℕ) : Option TimeSeries :=
  match collectValues
      (fun i => (ts.maWindow window_size i).map fun win => win.sum / (win.length : ℚ))
      (List.range ts.values.length) with
  | some maValues => TimeSeries.new ts.timestamps maValues
  | none => none

/-- The smoothing loop of `simple_exponential_smoothing` (and of
`exponential_moving_average`): starting from `prev`, each element `v`
contributes `alpha * v + (1 - alpha) * prev`. -/
def sesSmooth (alpha : ℚ) : ℚ → List ℚ → List ℚ
  | _, [] => []
  | prev, v :: vs =>
    let s := alpha * v + (1 - alpha) * prev
    s :: sesSmooth alpha s vs

/-- `TimeSeries::simple_exponential_smoothing`: asserts `alpha ∈ [0, 1]`,
seeds the forecast with `values[0]` (panic on empty values), smooths, appends
`horizon` copies of the last smoothed value, and extends the timestamps by a
constant step (`timestamps[1] - timestamps[0]`, or `1` for a single point),
with `u64` arithmetic taken modulo `2 ^ 64` as in a release build. -/
def TimeSeries.simple_exponential_smoothing (ts : TimeSeries) (alpha : ℚ) (horizon : ℕ) :
    Option TimeSeries :=
  if 0 ≤ alpha ∧ alpha ≤ 1 then
    match ts.values, ts.timestamps.getLast? with
    | v0 :: rest, some lastT =>
      let core := v0 :: sesSmooth alpha v0 rest
      let forecast := core ++ List.replicate horizon (core.getLastD 0)
      let step :=
        if 1 < ts.timestamps.length then
          (2 ^ 64 + ts.timestamps.getD 1 0 - ts.timestamps.getD 0 0) % 2 ^ 64
        else 1
      let newTimestamps :=
        ts.timestamps ++ (List.range horizon).map fun j => (lastT + (j + 1) * step) % 2 ^ 64
      TimeSeries.new newTimestamps forecast
    | _, _ => none
  else none

/-- The byte block fed to the hasher for one `(timestamp, value)` pair:
`timestamp.to_be_bytes()` then `value.to_be_bytes()`.  `bits v` is the 64-bit
IEEE-754 bit pattern of the value (a model parameter). -/
def pairBytes (bits : ℚ → ℕ) (p : ℕ × ℚ) : List ℕ :=
  beBytes 8 p.1 ++ beBytes 8 (bits p.2)

/-- `TimeSeries::compute_hash`: fold the hasher state over the zipped pairs,
feeding each pair's bytes in order, then finalize.  The hasher state is
modelled by the absorbed byte stream and `keccak` is the finalization. -/
def TimeSeries.compute_hash (bits : ℚ → ℕ) (keccak : List ℕ → List ℕ) (ts : TimeSeries) :
    List ℕ :=
  keccak ((ts.timestamps.zip ts.values).foldl (fun st p => st ++ pairBytes bits p) [])

/-- Rust `as u128` saturating cast of a (here always rational-valued) float:
truncation toward zero, clamped into `[0, u128::MAX]`.  For `q ≥ 0`,
`q.num / q.den` (Lean `Int` division on a non-negative numerator) is exactly
the truncation. -/
def castU128 (q : ℚ) : ℕ :=
  min (q.num / (q.den : ℤ)).toNat (2 ^ 128 - 1)

/-- `f64_to_u256` (crates copy): scale the absolute value by `1e18`, cast to
`u128`, and left-pad the 16-byte big-endian encoding with 16 zero bytes.  The
resulting `Uint<256, 4>` is carried as its 32-byte big-endian layout. -/
def f64_to_u256 (value : ℚ) : List ℕ :=
  List.replicate 16 0 ++ beBytes 16 (castU128 (|value| * 10 ^ 18))

/-- Modelled from the spec: `encode(x) = round(|x| * 10^18)` — the rounding
behaviour §4.2 ascribes to the codec (the source's crates copy has no call to
`round`; this definition exists only to compare the spec's words with the
code). -/
def f64_to_u256_spec_rounded (value : ℚ) : ℕ :=
  (round (|value| * 10 ^ 18)).toNat

/-- `u256_to_f64`: parse the low-order 16 bytes (`bytes[16..].try_into()`
panics unless exactly 16 bytes remain) as a `u128` and divide by `1e18`. -/
def u256_to_f64 (value : List ℕ) : Option ℚ :=
  if (value.drop 16).length = 16 then
    some ((fromBeBytes (value.drop 16) : ℚ) / 10 ^ 18)
  else none

/-- `vec_f64_to_u256`: element-wise encoding. -/
def vec_f64_to_u256 (values : List ℚ) : List (List ℕ) :=
  values.map f64_to_u256

/-- The `PublicValuesStruct` assembled by `to_public_values`; `uint256` fields
are carried as the natural number (timestamps) or the 32-byte big-endian
layout (hash and encoded statistics). -/
structure PublicValuesStruct where
  start_timestamp : ℕ
  end_timestamp : ℕ
  values_hash : List ℕ
  mean : List ℕ
  median : List ℕ
  std_dev : List ℕ
deriving DecidableEq

/-- `TimeSeries::to_public_values`: first/last timestamp (`unwrap_or(&0)`),
the commitment hash of `self`, and the three encoded statistics.  The `median`
panic on an empty series (modelled `none`) aborts the whole call. -/
def TimeSeries.to_public_values (bits : ℚ → ℕ) (keccak : List ℕ → List ℕ) (sqrtF : ℚ → ℚ)
    (ts : TimeSeries) : Option PublicValuesStruct :=
  match ts.median with
  | some med =>
    some
      { start_timestamp := ts.timestamps.headD 0
        end_timestamp := ts.timestamps.getLastD 0
        values_hash := ts.compute_hash bits keccak
        mean := f64_to_u256 ts.mean
        median := f64_to_u256 med
        std_dev := f64_to_u256 (ts.std_dev sqrtF) }
  | none => none

/-- The `MovingAveragePublicValuesStruct` assembled by
`to_moving_average_public_values`. -/
structure MovingAveragePublicValuesStruct where
  start_timestamp : ℕ
  end_timestamp : ℕ
  values_hash : List ℕ
  window_size : ℕ
  moving_averages : List (List ℕ)
deriving DecidableEq

/-- `TimeSeries::to_moving_average_public_values`: first/last timestamp,
commitment hash of `self` (the input, not the transformed series), the raw
window size, and the element-wise encoded moving-average values. -/
def TimeSeries.to_moving_average_public_values (bits : ℚ → ℕ) (keccak : List ℕ → List ℕ)
    (ts : TimeSeries) (window_size : ℕ) : Option MovingAveragePublicValuesStruct :=
  match ts.moving_average window_size with
  | some ma =>
    some
      { start_timestamp := ts.timestamps.headD 0
        end_timestamp := ts.timestamps.getLastD 0
        values_hash := ts.compute_hash bits keccak
        window_size := window_size
        moving_averages := vec_f64_to_u256 ma.values }
  | none => none

set_option maxRecDepth 100000
set_option maxHeartbeats 2000000

/-! ### Byte-serialization lemmas -/

theorem beBytes_length (w : ℕ) : ∀ n : ℕ, (beBytes w n).length = w := by
  induction w with
  | zero => intro n; rfl
  | succ w ih => intro n; simp [beBytes, ih]

theorem byte_mod_pow_succ (n w : ℕ) :
    n % 256 ^ (w + 1) = n / 256 ^ w % 256 * 256 ^ w + n % 256 ^ w := by
  have h1 : n / 256 ^ w % 256 = n % 256 ^ (w + 1) / 256 ^ w := by
    rw [Nat.div_mod_eq_mod_mul_div, ← pow_succ]
  have h2 : n % 256 ^ w = n % 256 ^ (w + 1) % 256 ^ w :=
    (Nat.mod_mod_of_dvd n (pow_dvd_pow 256 (by omega))).symm
  rw [h1, h2]
  exact (Nat.div_add_mod' _ _).symm

theorem fromBeBytes_beBytes_aux (w : ℕ) :
    ∀ n acc : ℕ,
      List.foldl (fun a b => a * 256 + b) acc (beBytes w n) = acc * 256 ^ w + n % 256 ^ w := by
  induction w with
  | zero => intro n acc; simp [beBytes, Nat.mod_one]
  | succ w ih =>
    intro n acc
    rw [beBytes, List.foldl_cons, ih, byte_mod_pow_succ n w]
    ring

theorem fromBeBytes_beBytes (w n : ℕ) : fromBeBytes (beBytes w n) = n % 256 ^ w := by
  unfold fromBeBytes
  rw [fromBeBytes_beBytes_aux]
  simp

/-! ### Fixed-point codec lemmas -/

theorem castU128_lt (q : ℚ) : castU128 q < 2 ^ 128 :=
  lt_of_le_of_lt (min_le_right _ _) (by norm_num)

theorem castU128_eq_floor (q : ℚ) : castU128 q = min ⌊q⌋.toNat (2 ^ 128 - 1) := by
  rw [castU128, Rat.floor_def]

theorem f64_to_u256_take16 (x : ℚ) : (f64_to_u256 x).take 16 = List.replicate 16 0 := by
  have h : (List.replicate 16 (0 : ℕ)).length = 16 := by simp
  rw [f64_to_u256]
  conv_lhs => rw [← h]
  exact List.take_left _ _

theorem f64_to_u256_drop16 (x : ℚ) :
    (f64_to_u256 x).drop 16 = beBytes 16 (castU128 (|x| * 10 ^ 18)) := by
  have h : (List.replicate 16 (0 : ℕ)).length = 16 := by simp
  rw [f64_to_u256]
  conv_lhs => rw [← h]
  exact List.drop_left _ _

theorem f64_to_u256_length (x : ℚ) : (f64_to_u256 x).length = 32 := by
  simp [f64_to_u256, beBytes_length]

theorem pow256_16 : (256 : ℕ) ^ 16 = 2 ^ 128 := by norm_num

theorem fromBeBytes_f64_to_u256 (x : ℚ) :
    fromBeBytes ((f64_to_u256 x).drop 16) = castU128 (|x| * 10 ^ 18) := by
  rw [f64_to_u256_drop16, fromBeBytes_beBytes, pow256_16]
  exact Nat.mod_eq_of_lt (castU128_lt _)

theorem u256_to_f64_f64_to_u256 (x : ℚ) :
    u256_to_f64 (f64_to_u256 x) = some ((castU128 (|x| * 10 ^ 18) : ℚ) / 10 ^ 18) := by
  rw [u256_to_f64, if_pos, fromBeBytes_f64_to_u256]
  rw [f64_to_u256_drop16, beBytes_length]

/-! ### Claim C10 -/

/-- C10: for every input `x`, the 32-byte value produced by `f64_to_u256` has
its 16 most-significant bytes all zero (the encoded magnitude is `< 2 ^ 128`),
and `u256_to_f64`'s parse of the low 16 bytes recovers the scaled integer
exactly, its slice-to-array conversion succeeding. -/
theorem encoder_low16_invariant (x : ℚ) :
    (f64_to_u256 x).length = 32 ∧
    (f64_to_u256 x).take 16 = List.replicate 16 0 ∧
    castU128 (|x| * 10 ^ 18) < 2 ^ 128 ∧
    fromBeBytes ((f64_to_u256 x).drop 16) = castU128 (|x| * 10 ^ 18) ∧
    u256_to_f64 (f64_to_u256 x) = some ((castU128 (|x| * 10 ^ 18) : ℚ) / 10 ^ 18) :=
  ⟨f64_to_u256_length x, f64_to_u256_take16 x, castU128_lt _,
    fromBeBytes_f64_to_u256 x, u256_to_f64_f64_to_u256 x⟩

/-! ### Claim C9 -/

/-- C9: the codec deterministically drops the sign: `decode (encode x)` always
succeeds with a non-negative rational, and for `x < 0` it coincides with
`decode (encode (-x))`; negative input is not an encoding error (the encoder
is total). -/
theorem codec_drops_sign (x : ℚ) :
    (∃ q, u256_to_f64 (f64_to_u256 x) = some q ∧ 0 ≤ q) ∧
    (x < 0 → u256_to_f64 (f64_to_u256 x) = u256_to_f64 (f64_to_u256 (-x))) := by
  refine ⟨⟨(castU128 (|x| * 10 ^ 18) : ℚ) / 10 ^ 18, u256_to_f64_f64_to_u256 x, ?_⟩, fun _ => ?_⟩
  · exact div_nonneg (Nat.cast_nonneg _) (by norm_num)
  · have h : f64_to_u256 (-x) = f64_to_u256 x := by
      rw [f64_to_u256, f64_to_u256, abs_neg]
    rw [h]

/-- Witness for C9 at the concrete negative input `-3/2`. -/
theorem codec_drops_sign_witness :
    ((-3 / 2 : ℚ) < 0) ∧
    u256_to_f64 (f64_to_u256 (-3 / 2 : ℚ)) = u256_to_f64 (f64_to_u256 (3 / 2 : ℚ)) := by
  refine ⟨of_decide_eq_true (by with_unfolding_all rfl), ?_⟩
  have h := (codec_drops_sign (-3 / 2 : ℚ)).2 (of_decide_eq_true (by with_unfolding_all rfl))
  simpa [neg_div] using h

/-! ### Claim C2 -/

/-- C2 counterexample: at `x = 2 ^ (-60)` (exactly representable in binary64,
with `|x| * 1e18 = 5 ^ 18 / 2 ^ 42` also exactly representable, so the
rational model follows the source bit-for-bit here), the spec's
`round(|x| * 10 ^ 18)` is `1` while `f64_to_u256` encodes `0`: the code
truncates instead of rounding. -/
theorem f64_to_u256_not_rounded_cex :
    f64_to_u256_spec_rounded (1 / 2 ^ 60) = 1 ∧
    fromBeBytes ((f64_to_u256 (1 / 2 ^ 60)).drop 16) = 0 := by
  constructor
  · have h : |(1 / 2 ^ 60 : ℚ)| = 1 / 2 ^ 60 := by with_unfolding_all rfl
    simp only [f64_to_u256_spec_rounded, h]
    norm_num [round_eq]
  · with_unfolding_all rfl

/-- C2 (amended): for every input whose scaled magnitude fits `u128`,
`f64_to_u256` encodes exactly `⌊|x| * 10 ^ 18⌋` — truncation toward zero, not
`round` — left-padded with zeros into the 32-byte big-endian layout, and that
layout decodes back to the same integer. -/
theorem f64_to_u256_truncates (x : ℚ) (h : ⌊|x| * 10 ^ 18⌋.toNat < 2 ^ 128) :
    f64_to_u256 x = List.replicate 16 0 ++ beBytes 16 ⌊|x| * 10 ^ 18⌋.toNat ∧
    fromBeBytes ((f64_to_u256 x).drop 16) = ⌊|x| * 10 ^ 18⌋.toNat := by
  have hc : castU128 (|x| * 10 ^ 18) = ⌊|x| * 10 ^ 18⌋.toNat := by
    rw [castU128_eq_floor]
    omega
  constructor
  · rw [f64_to_u256, hc]
  · rw [fromBeBytes_f64_to_u256, hc]

/-- Witness for C2's amended theorem at `x = 3/2`, where the scaled magnitude
is `1.5e18 < 2 ^ 128`. -/
theorem f64_to_u256_truncates_witness :
    ⌊|(3 / 2 : ℚ)| * 10 ^ 18⌋.toNat < 2 ^ 128 ∧
    f64_to_u256 (3 / 2 : ℚ) =
      List.replicate 16 0 ++ beBytes 16 ⌊|(3 / 2 : ℚ)| * 10 ^ 18⌋.toNat := by
  have e : ⌊|(3 / 2 : ℚ)| * 10 ^ 18⌋.toNat = 1500000000000000000 := by
    with_unfolding_all rfl
  have h : ⌊|(3 / 2 : ℚ)| * 10 ^ 18⌋.toNat < 2 ^ 128 := by rw [e]; decide
  exact ⟨h, (f64_to_u256_truncates (3 / 2) h).1⟩

/-! ### Claim C3 -/

/-- C3 counterexample: at `x = 2 ^ 110` (exactly representable, with exactly
representable scaled product `2 ^ 128 * 5 ^ 18 > u128::MAX`), `f64_to_u256`
returns a valid-looking 32-byte encoding of `u128::MAX` — the saturating `as
u128` cast — rather than failing with any `EncodingOverflow` error (its return
type has no error case at all). -/
theorem f64_to_u256_overflow_saturates_cex :
    fromBeBytes ((f64_to_u256 ((2 : ℚ) ^ 110)).drop 16) = 2 ^ 128 - 1 ∧
    (f64_to_u256 ((2 : ℚ) ^ 110)).length = 32 := by
  constructor
  · with_unfolding_all rfl
  · simp [f64_to_u256, beBytes_length]

/-- C3 (amended): whenever `|x| * 10 ^ 18` reaches `2 ^ 128` — the range of
the crates copy's `u128` intermediate — that copy of `f64_to_u256` silently
saturates to the encoding of `u128::MAX` instead of failing; no
`EncodingOverflow` error exists anywhere in the source.  (The `src/lib` copy
uses a 256-bit `U256`: scaled magnitudes in `[2 ^ 128, 2 ^ 256)`, such as this
claim's `2 ^ 110 * 10 ^ 18`, it encodes exactly with no failure, and only
beyond `U256`'s range, or for non-finite input, does its
`from_dec_str(..).unwrap()` panic.) -/
theorem f64_to_u256_overflow_saturates (x : ℚ) (h : (2 ^ 128 : ℚ) ≤ |x| * 10 ^ 18) :
    f64_to_u256 x = List.replicate 16 0 ++ beBytes 16 (2 ^ 128 - 1) := by
  have hfloor : (2 ^ 128 : ℤ) ≤ ⌊|x| * 10 ^ 18⌋ := by
    rw [Int.le_floor]
    exact_mod_cast h
  have hc : castU128 (|x| * 10 ^ 18) = 2 ^ 128 - 1 := by
    rw [castU128_eq_floor]
    omega
  rw [f64_to_u256, hc]

/-- Witness for C3's amended theorem at the overflowing input `x = 2 ^ 110`. -/
theorem f64_to_u256_overflow_saturates_witness :
    (2 ^ 128 : ℚ) ≤ |(2 : ℚ) ^ 110| * 10 ^ 18 ∧
    f64_to_u256 ((2 : ℚ) ^ 110) = List.replicate 16 0 ++ beBytes 16 (2 ^ 128 - 1) := by
  have h : (2 ^ 128 : ℚ) ≤ |(2 : ℚ) ^ 110| * 10 ^ 18 :=
    of_decide_eq_true (by with_unfolding_all rfl)
  exact ⟨h, f64_to_u256_overflow_saturates _ h⟩

/-! ### Claim C4 -/

/-- C4 counterexample: `TimeSeries::new` on two empty vectors succeeds and
returns the constructed empty series — there is no `EmptySeries` rejection
(and on mismatched lengths the source panics rather than returning a
`LengthMismatch` error value). -/
theorem timeseries_new_empty_cex :
    TimeSeries.new ([] : List ℕ) ([] : List ℚ) = some ⟨[], []⟩ := by
  with_unfolding_all rfl

/-- C4 (amended): `TimeSeries::new` aborts (panics; modelled `none`) on
mismatched lengths instead of returning a `LengthMismatch` error value, and
succeeds on any equal-length inputs — including two empty vectors, which it
accepts instead of failing with `EmptySeries`. -/
theorem timeseries_new_panics_or_constructs (timestamps : List ℕ) (values : List ℚ) :
    (timestamps.length ≠ values.length → TimeSeries.new timestamps values = none) ∧
    (timestamps.length = values.length →
      TimeSeries.new timestamps values = some ⟨timestamps, values⟩) := by
  constructor
  · intro h
    rw [TimeSeries.new, if_neg h]
  · intro h
    rw [TimeSeries.new, if_pos h]

/-- Witness for C4's amended theorem: a length mismatch aborts. -/
theorem timeseries_new_panics_or_constructs_witness :
    TimeSeries.new [1] ([] : List ℚ) = none :=
  (timeseries_new_panics_or_constructs [1] []).1 (by decide)

/-! ### Commitment-hash lemmas (claim C1) -/

theorem foldl_append_pairBytes (bits : ℚ → ℕ) :
    ∀ (l : List (ℕ × ℚ)) (acc : List ℕ),
      l.foldl (fun st p => st ++ pairBytes bits p) acc =
        acc ++ (l.map (pairBytes bits)).flatten := by
  intro l
  induction l with
  | nil => intro acc; simp
  | cons p l ih => intro acc; simp [List.foldl_cons, ih]

theorem zip_pairBytes_congr (bits : ℚ → ℕ) :
    ∀ (t : List ℕ) (v1 v2 : List ℚ), v1.map bits = v2.map bits →
      (t.zip v1).map (pairBytes bits) = (t.zip v2).map (pairBytes bits) := by
  intro t
  induction t with
  | nil => intro v1 v2 _; simp
  | cons x t ih =>
    intro v1 v2 h
    cases v1 with
    | nil =>
      cases v2 with
      | nil => rfl
      | cons b v2 => simp at h
    | cons a v1 =>
      cases v2 with
      | nil => simp at h
      | cons b v2 =>
        simp only [List.map_cons, List.cons.injEq] at h
        simp [pairBytes, h.1, ih v1 v2 h.2]

/-- C1: the commitment hash is a pure deterministic function of the pair
sequence — any two series with identical timestamp sequences and identical
value bit patterns hash to the identical digest — and that digest is the
finalization (`keccak`) of exactly the concatenation, pair by pair in
sequence order, of the 8-byte big-endian timestamp followed by the 8-byte
value bit pattern.  `keccak` (the external Keccak-256, which fixes the 32-byte
digest width) and `bits` (IEEE-754 `to_bits`) are arbitrary parameters. -/
theorem compute_hash_deterministic (keccak : List ℕ → List ℕ) (bits : ℚ → ℕ)
    (ts1 ts2 : TimeSeries) (ht : ts1.timestamps = ts2.timestamps)
    (hv : ts1.values.map bits = ts2.values.map bits) :
    ts1.compute_hash bits keccak = ts2.compute_hash bits keccak ∧
    ts1.compute_hash bits keccak =
      keccak (((ts1.timestamps.zip ts1.values).map (pairBytes bits)).flatten) := by
  have hstream : ∀ ts : TimeSeries,
      ts.compute_hash bits keccak =
        keccak (((ts.timestamps.zip ts.values).map (pairBytes bits)).flatten) := by
    intro ts
    rw [TimeSeries.compute_hash, foldl_append_pairBytes]
    simp
  refine ⟨?_, hstream ts1⟩
  rw [hstream ts1, hstream ts2, ht, zip_pairBytes_congr bits ts2.timestamps _ _ hv]

/-- Witness for C1 on two concrete series whose values differ as rationals but
share the same bit-pattern image under the chosen `bits`. -/
theorem compute_hash_deterministic_witness :
    TimeSeries.compute_hash (fun _ => 0) (fun l => l) ⟨[1], [1]⟩ =
      TimeSeries.compute_hash (fun _ => 0) (fun l => l) ⟨[1], [2]⟩ ∧
    TimeSeries.compute_hash (fun _ => 0) (fun l => l) ⟨[1], [1]⟩ =
      (fun l => l) ((([1].zip [(1 : ℚ)]).map (pairBytes fun _ => 0)).flatten) :=
  compute_hash_deterministic (fun l => l) (fun _ => 0) ⟨[1], [1]⟩ ⟨[1], [2]⟩ rfl rfl

/-! ### Moving-average lemmas (claims C5, C6, C8) -/

theorem collectValues_spec (f : ℕ → Option ℚ) :
    ∀ l : List ℕ, (∀ i ∈ l, (f i).isSome) →
      ∃ vs, collectValues f l = some vs ∧ vs.length = l.length ∧
        ∀ k : ℕ, vs[k]? = l[k]?.bind f := by
  intro l
  induction l with
  | nil => intro _; exact ⟨[], rfl, rfl, fun k => by simp⟩
  | cons i is ih =>
    intro h
    obtain ⟨v, hv⟩ := Option.isSome_iff_exists.mp (h i (by simp))
    obtain ⟨vs, hvs, hlen, hget⟩ := ih fun j hj => h j (by simp [hj])
    refine ⟨v :: vs, ?_, by simp [hlen], ?_⟩
    · rw [collectValues, hv, hvs]
    · intro k
      cases k with
      | zero => simp [hv]
      | succ k => simp [hget k]

theorem maWindow_eq (ts : TimeSeries) (w i : ℕ) (hi : i < ts.values.length) :
    ts.maWindow w i =
      some ((ts.values.drop (maStart w i)).take (i + 1 - maStart w i)) := by
  rw [TimeSeries.maWindow, sliceIncl, if_pos]
  refine ⟨?_, by omega⟩
  rw [maStart]
  split <;> omega

theorem maStart_eq (w i : ℕ) : maStart w i = i + 1 - w := by
  rw [maStart]
  split <;> omega

theorem moving_average_some (ts : TimeSeries) (w : ℕ)
    (hwf : ts.timestamps.length = ts.values.length) :
    ∃ out : TimeSeries, ts.moving_average w = some out ∧
      out.timestamps = ts.timestamps ∧
      out.values.length = ts.values.length ∧
      ∀ i : ℕ, i < ts.values.length →
        out.values[i]? =
          some (((ts.values.drop (maStart w i)).take (i + 1 - maStart w i)).sum /
            (((ts.values.drop (maStart w i)).take (i + 1 - maStart w i)).length : ℚ)) := by
  obtain ⟨vs, hvs, hlen, hget⟩ :=
    collectValues_spec
      (fun i => (ts.maWindow w i).map fun win => win.sum / (win.length : ℚ))
      (List.range ts.values.length)
      (fun i hi => by simp [maWindow_eq ts w i (List.mem_range.mp hi)])
  have hlen' : vs.length = ts.values.length := by simpa using hlen
  refine ⟨⟨ts.timestamps, vs⟩, ?_, rfl, hlen', fun i hi => ?_⟩
  · rw [TimeSeries.moving_average, hvs]
    show TimeSeries.new ts.timestamps vs = some ⟨ts.timestamps, vs⟩
    rw [TimeSeries.new, if_pos (hwf.trans hlen'.symm)]
  · have h1 := hget i
    rw [List.getElem?_range hi] at h1
    simp only [Option.some_bind] at h1
    show vs[i]? = _
    rw [h1, maWindow_eq ts w i hi, Option.map_some']

/-! ### Claim C5 -/

/-- C5: for every well-formed non-empty series and window size in `[1, n]`,
`moving_average` succeeds with a series of the same length whose value at
index `i` is the arithmetic mean of the trailing window
`values[max(0, i - w + 1) ..= i]` (the `ℕ`-truncated `i + 1 - w` is exactly
`max(0, i - w + 1)`); in particular on values `[1, 2, 3, 4, 5]` with window 3
it yields `[1, 1.5, 2, 3, 4]`. -/
theorem moving_average_trailing_window :
    (∀ (ts : TimeSeries) (w : ℕ), ts.timestamps.length = ts.values.length →
      ts.values ≠ [] → 1 ≤ w → w ≤ ts.values.length →
      ∃ out : TimeSeries, ts.moving_average w = some out ∧
        out.values.length = ts.values.length ∧
        ∀ i : ℕ, i < ts.values.length →
          out.values[i]? =
            some (((ts.values.drop (i + 1 - w)).take (i + 1 - (i + 1 - w))).sum /
              (((ts.values.drop (i + 1 - w)).take (i + 1 - (i + 1 - w))).length : ℚ))) ∧
    TimeSeries.moving_average ⟨[1, 2, 3, 4, 5], [1, 2, 3, 4, 5]⟩ 3 =
      some ⟨[1, 2, 3, 4, 5], [1, 3 / 2, 2, 3, 4]⟩ := by
  constructor
  · intro ts w hwf _ _ _
    obtain ⟨out, h1, _, h3, h4⟩ := moving_average_some ts w hwf
    refine ⟨out, h1, h3, fun i hi => ?_⟩
    rw [h4 i hi, maStart_eq w i]
  · with_unfolding_all rfl

/-- Witness for C5's universally quantified part at a concrete series and
window size. -/
theorem moving_average_trailing_window_witness :
    ∃ out : TimeSeries,
      TimeSeries.moving_average ⟨[10, 20], [4, 6]⟩ 1 = some out ∧
      out.values.length = ([4, 6] : List ℚ).length ∧
      ∀ i : ℕ, i < ([4, 6] : List ℚ).length →
        out.values[i]? =
          some (((([4, 6] : List ℚ).drop (i + 1 - 1)).take (i + 1 - (i + 1 - 1))).sum /
            (((([4, 6] : List ℚ).drop (i + 1 - 1)).take (i + 1 - (i + 1 - 1))).length : ℚ)) :=
  moving_average_trailing_window.1 ⟨[10, 20], [4, 6]⟩ 1 rfl (List.cons_ne_nil _ _)
    (by decide) (by decide)

/-! ### Claim C6 -/

/-- C6 counterexample: on the one-point series, `moving_average` with
`window_size = 0` returns a result series (`isSome`) — it does not fail with
any `InvalidParameter` error (no such check exists in the source). -/
theorem moving_average_zero_window_cex :
    (TimeSeries.moving_average ⟨[1], [1]⟩ 0).isSome = true := by
  with_unfolding_all rfl

/-- C6 (amended): `moving_average` performs no validation of
`window_size = 0`: the call succeeds, returning a series of the input length
in which every averaging window is the empty slice `&values[i+1..=i]` — so
every output value is the `f64` `NaN` (`0.0 / 0.0`; `0` in this rational
model) — rather than failing with `InvalidParameter`. -/
theorem moving_average_zero_window_total (ts : TimeSeries)
    (hwf : ts.timestamps.length = ts.values.length) (hne : ts.values ≠ []) :
    ∃ out : TimeSeries, ts.moving_average 0 = some out ∧
      out.values.length = ts.values.length ∧
      ∀ i : ℕ, i < ts.values.length → ts.maWindow 0 i = some [] := by
  obtain ⟨out, h1, _, h3, _⟩ := moving_average_some ts 0 hwf
  refine ⟨out, h1, h3, fun i hi => ?_⟩
  rw [maWindow_eq ts 0 i hi, maStart_eq 0 i]
  simp

/-- Witness for C6's amended theorem at a concrete one-point series. -/
theorem moving_average_zero_window_total_witness :
    ∃ out : TimeSeries, TimeSeries.moving_average ⟨[7], [5]⟩ 0 = some out ∧
      out.values.length = ([5] : List ℚ).length ∧
      ∀ i : ℕ, i < ([5] : List ℚ).length →
        TimeSeries.maWindow ⟨[7], [5]⟩ 0 i = some [] :=
  moving_average_zero_window_total ⟨[7], [5]⟩ rfl (List.cons_ne_nil _ _)

/-! ### Exponential-smoothing lemmas (claim C7) -/

theorem sesSmooth_length (a : ℚ) :
    ∀ (l : List ℚ) (p : ℚ), (sesSmooth a p l).length = l.length := by
  intro l
  induction l with
  | nil => intro p; rfl
  | cons v vs ih => intro p; simp [sesSmooth, ih]

theorem sesSmooth_get (a : ℚ) :
    ∀ (l : List ℚ) (p : ℚ) (i : ℕ), i < l.length →
      (p :: sesSmooth a p l)[i + 1]? =
        some (a * l.getD i 0 + (1 - a) * (p :: sesSmooth a p l).getD i 0) := by
  intro l
  induction l with
  | nil => intro p i hi; simp at hi
  | cons v vs ih =>
    intro p i hi
    cases i with
    | zero => simp [sesSmooth]
    | succ i =>
      have h := ih (a * v + (1 - a) * p) i (by simpa using hi)
      simp only [sesSmooth]
      rw [List.getElem?_cons_succ, h]
      simp [List.getD_cons_succ]

/-! ### Claim C7 -/

/-- C7: for every well-formed non-empty series, `alpha ∈ [0, 1]` and horizon
`h`, `simple_exponential_smoothing` succeeds with a series of length `n + h`:
the first `n` values follow the EMA recurrence seeded with `values[0]`
(`out[0] = values[0]`, `out[i] = alpha * values[i] + (1 - alpha) * out[i-1]`),
each appended value equals the last smoothed value, and the `j`-th appended
timestamp is the last input timestamp plus `(j + 1)` times the inferred step
`timestamps[1] - timestamps[0]` (or `1` for a single-point series), in
wrapping `u64` arithmetic (modulo `2 ^ 64`). -/
theorem simple_exponential_smoothing_spec (ts : TimeSeries) (alpha : ℚ) (horizon : ℕ)
    (hwf : ts.timestamps.length = ts.values.length) (hne : ts.values ≠ [])
    (h0 : 0 ≤ alpha) (h1 : alpha ≤ 1) :
    ∃ out : TimeSeries, ts.simple_exponential_smoothing alpha horizon = some out ∧
      out.values.length = ts.values.length + horizon ∧
      out.timestamps.length = ts.timestamps.length + horizon ∧
      out.values[0]? = ts.values[0]? ∧
      (∀ i : ℕ, i + 1 < ts.values.length →
        out.values[i + 1]? =
          some (alpha * ts.values.getD (i + 1) 0 + (1 - alpha) * out.values.getD i 0)) ∧
      (∀ j : ℕ, j < horizon →
        out.values[ts.values.length + j]? =
          some (out.values.getD (ts.values.length - 1) 0)) ∧
      (∀ j : ℕ, j < horizon →
        out.timestamps[ts.timestamps.length + j]? =
          some ((ts.timestamps.getLastD 0 +
            (j + 1) * (if 1 < ts.timestamps.length then
              (2 ^ 64 + ts.timestamps.getD 1 0 - ts.timestamps.getD 0 0) % 2 ^ 64
            else 1)) % 2 ^ 64)) := by
  obtain ⟨v0, rest, hv⟩ : ∃ v0 rest, ts.values = v0 :: rest := by
    cases hvv : ts.values with
    | nil => exact absurd hvv hne
    | cons a l => exact ⟨a, l, rfl⟩
  have htne : ts.timestamps ≠ [] := by
    intro h
    rw [h, hv] at hwf
    simp at hwf
  have hlast : ts.timestamps.getLast? = some (ts.timestamps.getLast htne) :=
    List.getLast?_eq_getLast_of_ne_nil htne
  set lastT := ts.timestamps.getLast htne with hlastT
  set core := v0 :: sesSmooth alpha v0 rest with hcore
  set step :=
    (if 1 < ts.timestamps.length then
      (2 ^ 64 + ts.timestamps.getD 1 0 - ts.timestamps.getD 0 0) % 2 ^ 64
    else 1) with hstep
  set newTs :=
    ts.timestamps ++ (List.range horizon).map (fun j => (lastT + (j + 1) * step) % 2 ^ 64)
    with hnewTs
  set forecast := core ++ List.replicate horizon (core.getLastD 0) with hforecast
  have hcorelen : core.length = ts.values.length := by
    rw [hcore, hv]
    simp [sesSmooth_length]
  have hnpos : 0 < ts.values.length := by rw [hv]; simp
  have hflen : forecast.length = ts.values.length + horizon := by
    rw [hforecast]
    simp [hcorelen]
  have htlen : newTs.length = ts.timestamps.length + horizon := by
    rw [hnewTs]
    simp
  have hses : ts.simple_exponential_smoothing alpha horizon = some ⟨newTs, forecast⟩ := by
    rw [TimeSeries.simple_exponential_smoothing, if_pos (⟨h0, h1⟩ : 0 ≤ alpha ∧ alpha ≤ 1),
      hv, hlast]
    show TimeSeries.new newTs forecast = some ⟨newTs, forecast⟩
    rw [TimeSeries.new, if_pos (show newTs.length = forecast.length by
      rw [htlen, hflen, hwf])]
  have hgetD : ∀ i : ℕ, i < core.length → forecast.getD i 0 = core.getD i 0 := by
    intro i hi
    rw [List.getD_eq_getElem?_getD, List.getD_eq_getElem?_getD, hforecast,
      List.getElem?_append_left hi]
  refine ⟨⟨newTs, forecast⟩, hses, hflen, htlen, ?_, ?_, ?_, ?_⟩
  · show forecast[0]? = ts.values[0]?
    rw [hforecast, List.getElem?_append_left (by rw [hcorelen]; exact hnpos), hcore, hv]
    simp
  · intro i hi
    have hi' : i + 1 < core.length := by omega
    have hirest : i < rest.length := by
      have : ts.values.length = rest.length + 1 := by rw [hv]; simp
      omega
    show forecast[i + 1]? = _
    rw [hforecast, List.getElem?_append_left hi', hcore,
      sesSmooth_get alpha rest v0 i hirest]
    have e1 : ts.values.getD (i + 1) 0 = rest.getD i 0 := by
      rw [hv, List.getD_cons_succ]
    have e2 : forecast.getD i 0 = core.getD i 0 := hgetD i (by omega)
    rw [e1, e2, hcore]
  · intro j hj
    have hlastD : core.getLastD 0 = core.getD (core.length - 1) 0 := by
      rw [List.getLastD_eq_getLast?, List.getLast?_eq_getElem?, List.getD_eq_getElem?_getD]
    have hRHS : forecast.getD (ts.values.length - 1) 0 = core.getLastD 0 := by
      rw [hlastD, hcorelen]
      exact hgetD (ts.values.length - 1) (by omega)
    show forecast[ts.values.length + j]? = some (forecast.getD (ts.values.length - 1) 0)
    rw [hRHS, hforecast, List.getElem?_append_right (by rw [hcorelen]; omega)]
    have e3 : ts.values.length + j - core.length = j := by rw [hcorelen]; omega
    rw [e3]
    simp [List.getElem?_replicate, hj]
  · intro j hj
    have hlastD2 : ts.timestamps.getLastD 0 = lastT := by
      rw [List.getLastD_eq_getLast?, hlast]
      rfl
    show newTs[ts.timestamps.length + j]? = _
    rw [hnewTs, List.getElem?_append_right (by omega)]
    have e6 : ts.timestamps.length + j - ts.timestamps.length = j := by omega
    rw [e6, List.getElem?_map, List.getElem?_range hj]
    rw [hlastD2]
    rfl

/-- Witness for C7 at the repository's own test vector
(`[1..5]`, `alpha = 1/2`, `horizon = 2`). -/
theorem simple_exponential_smoothing_spec_witness :
    ∃ out : TimeSeries,
      TimeSeries.simple_exponential_smoothing ⟨[1, 2, 3, 4, 5], [1, 2, 3, 4, 5]⟩ (1 / 2) 2 =
        some out ∧
      out.values.length = ([1, 2, 3, 4, 5] : List ℚ).length + 2 ∧
      out.timestamps.length = ([1, 2, 3, 4, 5] : List ℕ).length + 2 ∧
      out.values[0]? = ([1, 2, 3, 4, 5] : List ℚ)[0]? ∧
      (∀ i : ℕ, i + 1 < ([1, 2, 3, 4, 5] : List ℚ).length →
        out.values[i + 1]? =
          some (1 / 2 * ([1, 2, 3, 4, 5] : List ℚ).getD (i + 1) 0 +
            (1 - 1 / 2) * out.values.getD i 0)) ∧
      (∀ j : ℕ, j < 2 →
        out.values[([1, 2, 3, 4, 5] : List ℚ).length + j]? =
          some (out.values.getD (([1, 2, 3, 4, 5] : List ℚ).length - 1) 0)) ∧
      (∀ j : ℕ, j < 2 →
        out.timestamps[([1, 2, 3, 4, 5] : List ℕ).length + j]? =
          some ((([1, 2, 3, 4, 5] : List ℕ).getLastD 0 +
            (j + 1) * (if 1 < ([1, 2, 3, 4, 5] : List ℕ).length then
              (2 ^ 64 + ([1, 2, 3, 4, 5] : List ℕ).getD 1 0 -
                ([1, 2, 3, 4, 5] : List ℕ).getD 0 0) % 2 ^ 64
            else 1)) % 2 ^ 64)) :=
  simple_exponential_smoothing_spec ⟨[1, 2, 3, 4, 5], [1, 2, 3, 4, 5]⟩ (1 / 2) 2 rfl
    (List.cons_ne_nil _ _) (of_decide_eq_true (by with_unfolding_all rfl))
    (of_decide_eq_true (by with_unfolding_all rfl))

/-! ### Median lemmas (claim C8) -/

theorem insertAsc_length (x : ℚ) : ∀ l : List ℚ, (insertAsc x l).length = l.length + 1 := by
  intro l
  induction l with
  | nil => rfl
  | cons y ys ih =>
    rw [insertAsc]
    split
    · simp
    · simp [ih]

theorem sortAsc_length : ∀ l : List ℚ, (sortAsc l).length = l.length := by
  intro l
  induction l with
  | nil => rfl
  | cons x xs ih =>
    rw [sortAsc, insertAsc_length, ih]
    rfl

theorem median_some (ts : TimeSeries) (hne : ts.values ≠ []) : ∃ m, ts.median = some m := by
  have hlen : (sortAsc ts.values).length = ts.values.length := sortAsc_length _
  have hpos : 0 < ts.values.length := List.length_pos.mpr hne
  simp only [TimeSeries.median]
  by_cases hpar : (sortAsc ts.values).length % 2 = 0
  · rw [if_pos hpar]
    rw [List.getElem?_eq_getElem
        (show (sortAsc ts.values).length / 2 - 1 < (sortAsc ts.values).length by omega),
      List.getElem?_eq_getElem
        (show (sortAsc ts.values).length / 2 < (sortAsc ts.values).length by omega)]
    exact ⟨_, rfl⟩
  · rw [if_neg hpar,
      List.getElem?_eq_getElem
        (show (sortAsc ts.values).length / 2 < (sortAsc ts.values).length by omega)]
    exact ⟨_, rfl⟩

theorem median_none (ts : TimeSeries) (h : ts.values = []) : ts.median = none := by
  simp [TimeSeries.median, h, sortAsc]

/-! ### Claim C8 -/

/-- C8 counterexample: on the empty series the summary assembler
`to_public_values` aborts inside `median` (the `mid - 1` index underflows and
the lookup is out of bounds) and produces no record at all — the claimed
`0 / 0` record is never constructed in summary mode. -/
theorem to_public_values_empty_cex :
    TimeSeries.to_public_values (fun _ => 0) (fun l => l) (fun q => q) ⟨[], []⟩ = none := by
  with_unfolding_all rfl

/-- C8 (amended): both assembler modes bind the output record to the original
input: any record produced carries `values_hash = compute_hash(input)` (never
the hash of a transformed series) and `start_timestamp` / `end_timestamp`
equal to the input's first/last timestamps (`unwrap_or(0)`, hence `0 / 0` on
an empty series).  The moving-average mode produces such a record for every
well-formed input including the empty one, but the summary mode aborts on the
empty series inside `median` and returns no record. -/
theorem public_values_bind_input (bits : ℚ → ℕ) (keccak : List ℕ → List ℕ) (sqrtF : ℚ → ℚ)
    (ts : TimeSeries) (w : ℕ) :
    (ts.values ≠ [] →
      ∃ r, ts.to_public_values bits keccak sqrtF = some r ∧
        r.values_hash = ts.compute_hash bits keccak ∧
        r.start_timestamp = ts.timestamps.headD 0 ∧
        r.end_timestamp = ts.timestamps.getLastD 0) ∧
    (ts.values = [] → ts.to_public_values bits keccak sqrtF = none) ∧
    (ts.timestamps.length = ts.values.length →
      ∃ r, ts.to_moving_average_public_values bits keccak w = some r ∧
        r.values_hash = ts.compute_hash bits keccak ∧
        r.start_timestamp = ts.timestamps.headD 0 ∧
        r.end_timestamp = ts.timestamps.getLastD 0 ∧
        r.window_size = w) := by
  refine ⟨fun hne => ?_, fun hemp => ?_, fun hwf => ?_⟩
  · obtain ⟨m, hm⟩ := median_some ts hne
    rw [TimeSeries.to_public_values, hm]
    exact ⟨_, rfl, rfl, rfl, rfl⟩
  · rw [TimeSeries.to_public_values, median_none ts hemp]
  · obtain ⟨out, h1, _, _, _⟩ := moving_average_some ts w hwf
    rw [TimeSeries.to_moving_average_public_values, h1]
    exact ⟨_, rfl, rfl, rfl, rfl, rfl⟩

/-- Witness for C8's amended theorem: all three implications discharged at
concrete inputs (a one-point series for the two producing modes, the empty
series for the aborting summary mode). -/
theorem public_values_bind_input_witness :
    (∃ r, TimeSeries.to_public_values (fun _ => 0) (fun l => l) (fun q => q) ⟨[3], [4]⟩ =
        some r ∧
      r.values_hash = TimeSeries.compute_hash (fun _ => 0) (fun l => l) ⟨[3], [4]⟩ ∧
      r.start_timestamp = ([3] : List ℕ).headD 0 ∧
      r.end_timestamp = ([3] : List ℕ).getLastD 0) ∧
    (∃ r, TimeSeries.to_moving_average_public_values (fun _ => 0) (fun l => l) ⟨[3], [4]⟩ 1 =
        some r ∧
      r.values_hash = TimeSeries.compute_hash (fun _ => 0) (fun l => l) ⟨[3], [4]⟩ ∧
      r.start_timestamp = ([3] : List ℕ).headD 0 ∧
      r.end_timestamp = ([3] : List ℕ).getLastD 0 ∧
      r.window_size = 1) ∧
    TimeSeries.to_public_values (fun _ => 1) (fun l => 0 :: l) (fun _ => 0) ⟨[], []⟩ = none :=
  ⟨(public_values_bind_input (fun _ => 0) (fun l => l) (fun q => q) ⟨[3], [4]⟩ 1).1
      (List.cons_ne_nil _ _),
    (public_values_bind_input (fun _ => 0) (fun l => l) (fun q => q) ⟨[3], [4]⟩ 1).2.2 rfl,
    (public_values_bind_input (fun _ => 1) (fun l => 0 :: l) (fun _ => 0) ⟨[], []⟩ 1).2.1 rfl⟩
